import Mathlib

/-!
# Verification of the balance-computation core of `split`

Shallow embedding of `calculateBalances` from
`src/split/src/components/MainPage.jsx` (the "Balance Engine" plus the
per-expense "Share Allocator" switch), and proofs of the specification's
claims about it.

Modelling conventions:
* JavaScript numbers are embedded as exact rationals `ℚ`; the source's
  literal `0.01` settlement threshold becomes `1/100`.
* A JavaScript `TypeError` escaping the `forEach` (reading a property of
  `undefined`) is modelled as `Except.error ()`: it happens exactly when
  the code indexes `debtsMatrix[x]` for an `x` that is not a participant
  name, or evaluates `splitBetween[0]` with `splitBetween` undefined.
* Possibly-absent record fields (`amount`, `paidBy`, `splitBetween`,
  `splitValues`, `itemized`) are `Option`s; the JS falsiness guards
  `!amount` and `!paidBy` also treat `0` and `""` as absent.
* A JS object used as a map is a `List (String × ℚ)` in insertion order;
  assignment `obj[k] = v` is `objSet` (overwrite in place, else append),
  and `Object.entries` is the list itself.
* The debtor ledger `debtsMatrix` is a total function
  `String → String → ℚ` initialised to zero.  The JS object only has the
  participant names as keys, which matters in two ways: reading a missing
  outer key throws (modelled by the explicit roster checks), and writing
  through a missing inner key stores `NaN` where the model stores a
  rational.  The netting loop reads only roster-name pairs, so the value
  stored at a non-roster inner key is unobservable either way; writes to
  such keys are kept (e.g. the literal key `"undefined"` that
  `splitBetween[0]` of an empty array produces) so that the model is
  faithful even for a participant literally named `"undefined"`.
-/

/-- A participant record `{ id, name }`. -/
structure Participant where
  id : String
  name : String
deriving DecidableEq, Repr

/-- One transaction record, expense or payment, as destructured by
`calculateBalances`: `const { amount, paidBy, splitMethod, splitBetween,
splitValues, isPayment, itemized } = expense`. -/
structure Txn where
  amount : Option ℚ := none
  paidBy : Option String := none
  splitMethod : String := ""
  splitBetween : Option (List String) := none
  splitValues : Option (List (String × ℚ)) := none
  isPayment : Bool := false
  itemized : Option (List (String × ℚ)) := none
deriving DecidableEq, Repr

/-- An output record `{ from, to, amount }` pushed onto `finalDebts`
(`from` and `to` are Lean keywords, hence `from_`/`to_`). -/
structure Debt where
  from_ : String
  to_ : String
  amount : ℚ
deriving DecidableEq, Repr

/-- The debtor ledger `debtsMatrix`, as a total rational-valued matrix
keyed by borrower and creditor name. -/
abbrev Mat := String → String → ℚ

/-- The all-zero ledger that the `participants.reduce` initialisation
builds. -/
def zeroMat : Mat := fun _ _ => 0

/-- The compound assignments `debtsMatrix[a][b] += s` / `-= s`
(the latter with `s` negative). -/
def mupdAdd (m : Mat) (a b : String) (s : ℚ) : Mat :=
  fun x y => if x = a ∧ y = b then m x y + s else m x y

/-- JS object assignment `sh[k] = v` on an insertion-ordered association
list: overwrite an existing key in place, otherwise append. -/
def objSet (sh : List (String × ℚ)) (k : String) (v : ℚ) : List (String × ℚ) :=
  if sh.any (fun p => p.1 = k) then
    sh.map (fun p => if p.1 = k then (k, v) else p)
  else sh ++ [(k, v)]

/-- The JS truthiness guard `!amount` (absent, `0`): `none` means the
transaction is skipped. -/
def truthyAmount : Option ℚ → Option ℚ
  | none => none
  | some a => if a = 0 then none else some a

/-- The JS truthiness guard `!paidBy` (absent, `""`). -/
def truthyStr : Option String → Option String
  | none => none
  | some s => if s = "" then none else some s

/-- The Share Allocator: the `switch (splitMethod)` block building the
`shares` object for one expense with (truthy) amount `a`. -/
def computeShares (a : ℚ) (e : Txn) : List (String × ℚ) :=
  match e.splitMethod with
  | "evenly" =>
    match e.splitBetween with
    | none => []
    | some sb =>
      if sb.length = 0 then []
      else sb.foldl (fun sh n => objSet sh n (a / sb.length)) []
  | "amount" =>
    match e.splitValues with
    | none => []
    | some sv => sv.foldl (fun sh p => objSet sh p.1 p.2) []
  | "percentage" =>
    match e.splitValues with
    | none => []
    | some sv => sv.foldl (fun sh p => objSet sh p.1 (a * (p.2 / 100))) []
  | "item" =>
    match e.itemized with
    | none => []
    | some it =>
      let baseTotal := (it.map Prod.snd).sum
      let extras := a - baseTotal
      it.foldl (fun sh p =>
        objSet sh p.1 (p.2 + extras * (if baseTotal > 0 then p.2 / baseTotal else 0))) []
  | _ => []

/-- The loop `Object.entries(shares).forEach(([borrower, shareAmount]) =>
{ if (borrower !== paidBy) debtsMatrix[borrower][paidBy] += shareAmount })`:
indexing `debtsMatrix[borrower]` for a borrower that is not a roster name
throws. -/
def applyShares (roster : List String) (paidBy : String) :
    Mat → List (String × ℚ) → Except Unit Mat
  | m, [] => .ok m
  | m, (borrower, s) :: rest =>
    if borrower = paidBy then applyShares roster paidBy m rest
    else if borrower ∈ roster then
      applyShares roster paidBy (mupdAdd m borrower paidBy s) rest
    else .error ()

/-- The body of `expenses.forEach`: skip on falsy `amount`/`paidBy`; a
payment does `debtsMatrix[paidBy][splitBetween[0]] -= amount` (throwing if
`splitBetween` is undefined or `paidBy` is not a roster name, and writing
through the key `"undefined"` when `splitBetween` is empty); an expense
runs the Share Allocator and accumulates non-self shares. -/
def applyTxn (roster : List String) (m : Mat) (e : Txn) : Except Unit Mat :=
  match truthyAmount e.amount, truthyStr e.paidBy with
  | some a, some paidBy =>
    if e.isPayment then
      match e.splitBetween with
      | none => .error ()
      | some sb =>
        if paidBy ∈ roster then
          .ok (mupdAdd m paidBy (sb.headD "undefined") (-a))
        else .error ()
    else applyShares roster paidBy m (computeShares a e)
  | _, _ => .ok m

/-- The participant names, in roster order (the keys of `debtsMatrix`). -/
def rosterNames (participants : List Participant) : List String :=
  participants.map Participant.name

/-- The `expenses.forEach` loop threading the mutable `debtsMatrix` and
propagating a thrown `TypeError` out of the loop. -/
def forEachTxn (roster : List String) : Mat → List Txn → Except Unit Mat
  | m, [] => .ok m
  | m, e :: es =>
    match applyTxn roster m e with
    | .ok m' => forEachTxn roster m' es
    | .error _ => .error ()

/-- Folding the whole transaction list into the ledger, starting from the
all-zero initialised matrix. -/
def buildMatrix (roster : List String) (expenses : List Txn) : Except Unit Mat :=
  forEachTxn roster zeroMat expenses

/-- The ordered pairs `(participants[i], participants[j])` with `i < j`,
in the order of the source's nested netting loops. -/
def pairsAfter : List String → List (String × String)
  | [] => []
  | p :: rest => rest.map (fun q => (p, q)) ++ pairsAfter rest

/-- The settlement threshold, the source literal `0.01`. -/
def settleEps : ℚ := 1 / 100

/-- One iteration of the netting loop body: compute
`net = debtsMatrix[p1][p2] - debtsMatrix[p2][p1]` and emit a debt when it
exceeds the threshold in either direction. -/
def netPair (m : Mat) (pq : String × String) : Option Debt :=
  let net := m pq.1 pq.2 - m pq.2 pq.1
  if net > settleEps then some ⟨pq.1, pq.2, net⟩
  else if net < -settleEps then some ⟨pq.2, pq.1, -net⟩
  else none

/-- The netting loops: for each roster pair `p1` before `p2`, emit a debt
when the net balance exceeds the threshold in either direction. -/
def netDebts (names : List String) (m : Mat) : List Debt :=
  (pairsAfter names).filterMap (netPair m)

/-- `calculateBalances(expenses, participants)`: fewer than two
participants short-circuits to no debts; otherwise build the ledger and
net it.  `Except.error ()` is a thrown `TypeError`. -/
def calculateBalances (expenses : List Txn) (participants : List Participant) :
    Except Unit (List Debt) :=
  if participants.length < 2 then .ok []
  else
    match buildMatrix (rosterNames participants) expenses with
    | .error _ => .error ()
    | .ok m => .ok (netDebts (rosterNames participants) m)

/-! ## Association-list (JS object) lemmas -/

theorem objSet_mem (p : String × ℚ) (sh : List (String × ℚ)) (k : String) (v : ℚ)
    (hp : p ∈ objSet sh k v) : p = (k, v) ∨ (p ∈ sh ∧ p.1 ≠ k) := by
  unfold objSet at hp
  split at hp
  · rcases List.mem_map.mp hp with ⟨q, hq, hpq⟩
    by_cases h : q.1 = k
    · left; rw [if_pos h] at hpq; exact hpq.symm
    · right; rw [if_neg h] at hpq; subst hpq; exact ⟨hq, h⟩
  · rcases List.mem_append.mp hp with h | h
    · rename_i hany
      right
      refine ⟨h, fun hk => hany ?_⟩
      exact List.any_eq_true.mpr ⟨p, h, by simp [hk]⟩
    · left; simpa using h

theorem objSet_self_mem (sh : List (String × ℚ)) (k : String) (v : ℚ) :
    (k, v) ∈ objSet sh k v := by
  unfold objSet
  split
  · rename_i hany
    rcases List.any_eq_true.mp hany with ⟨q, hq, hqk⟩
    simp only [decide_eq_true_eq] at hqk
    exact List.mem_map.mpr ⟨q, hq, by simp [hqk]⟩
  · simp

theorem objSet_mem_of_ne (q : String × ℚ) (sh : List (String × ℚ)) (k : String) (v : ℚ)
    (hq : q ∈ sh) (hne : q.1 ≠ k) : q ∈ objSet sh k v := by
  unfold objSet
  split
  · exact List.mem_map.mpr ⟨q, hq, by simp [hne]⟩
  · exact List.mem_append_left _ hq

theorem objSet_key_stays (n : String) (x : ℚ) (sh : List (String × ℚ)) (k : String) (v : ℚ)
    (h : (n, x) ∈ sh) : ∃ y, (n, y) ∈ objSet sh k v := by
  by_cases hnk : n = k
  · exact ⟨v, hnk ▸ objSet_self_mem sh k v⟩
  · exact ⟨x, objSet_mem_of_ne (n, x) sh k v h hnk⟩

/-! ## Additive decomposition of the ledger accumulation -/

theorem mupdAdd_shift (m m₀ : Mat) (a b : String) (s : ℚ) :
    mupdAdd (fun x y => m x y + m₀ x y) a b s =
      fun x y => m x y + mupdAdd m₀ a b s x y := by
  funext x y
  simp only [mupdAdd]
  split <;> ring

theorem applyShares_shift (roster : List String) (pb : String) :
    ∀ (sh : List (String × ℚ)) (m m₀ : Mat),
    applyShares roster pb (fun x y => m x y + m₀ x y) sh =
      (applyShares roster pb m₀ sh).map (fun d => fun x y => m x y + d x y)
  | [], m, m₀ => by simp [applyShares, Except.map]
  | (b, s) :: rest, m, m₀ => by
    simp only [applyShares]
    by_cases hb : b = pb
    · simp only [if_pos hb]
      exact applyShares_shift roster pb rest m m₀
    · simp only [if_neg hb]
      by_cases hr : b ∈ roster
      · simp only [if_pos hr, mupdAdd_shift]
        exact applyShares_shift roster pb rest m (mupdAdd m₀ b pb s)
      · simp [if_neg hr, Except.map]

theorem self_add_zeroMat (m : Mat) : (fun x y => m x y + zeroMat x y) = m := by
  funext x y; simp [zeroMat]

theorem applyTxn_shift (roster : List String) (m : Mat) (e : Txn) :
    applyTxn roster m e =
      (applyTxn roster zeroMat e).map (fun d => fun x y => m x y + d x y) := by
  unfold applyTxn
  rcases truthyAmount e.amount with _ | a <;> rcases truthyStr e.paidBy with _ | pb
  · simp [Except.map, self_add_zeroMat]
  · simp [Except.map, self_add_zeroMat]
  · simp [Except.map, self_add_zeroMat]
  · cases hpay : e.isPayment
    · simp only [hpay, Bool.false_eq_true, if_false]
      conv_lhs => rw [← self_add_zeroMat m]
      exact applyShares_shift roster pb (computeShares a e) m zeroMat
    · simp only [hpay, if_true]
      rcases e.splitBetween with _ | sb
      · simp [Except.map]
      · by_cases hr : pb ∈ roster
        · simp only [if_pos hr, Except.map]
          congr 1
          funext x y
          simp only [mupdAdd, zeroMat]
          split <;> ring
        · simp [if_neg hr, Except.map]

/-- Whether one transaction avoids throwing; by `applyTxn_shift` this does
not depend on the current ledger contents. -/
def txnOk (roster : List String) (e : Txn) : Bool :=
  match applyTxn roster zeroMat e with
  | .ok _ => true
  | .error _ => false

/-- The additive ledger contribution of one transaction: the result of
applying it to the zero ledger. -/
def dTxn (roster : List String) (e : Txn) : Mat :=
  match applyTxn roster zeroMat e with
  | .ok m => m
  | .error _ => zeroMat

theorem applyTxn_eq (roster : List String) (m : Mat) (e : Txn) :
    applyTxn roster m e =
      if txnOk roster e then .ok (fun x y => m x y + dTxn roster e x y)
      else .error () := by
  rw [applyTxn_shift]
  unfold txnOk dTxn
  rcases h : applyTxn roster zeroMat e with u | d
  · cases u; simp [Except.map]
  · simp [Except.map]

/-- The summed additive contributions of a transaction list. -/
def sumD (roster : List String) (es : List Txn) : Mat :=
  fun x y => (es.map (fun e => dTxn roster e x y)).sum

theorem forEachTxn_eq (roster : List String) :
    ∀ (es : List Txn) (m : Mat),
    forEachTxn roster m es =
      if es.all (txnOk roster) then
        .ok (fun x y => m x y + sumD roster es x y)
      else .error ()
  | [], m => by
    simp only [forEachTxn, List.all_nil, if_true]
    congr 1
    funext x y
    simp [sumD]
  | e :: es, m => by
    simp only [forEachTxn, List.all_cons]
    rw [applyTxn_eq]
    by_cases h : txnOk roster e = true
    · rw [if_pos h]
      show forEachTxn roster _ es = _
      rw [forEachTxn_eq roster es]
      simp only [h, Bool.true_and]
      by_cases h2 : es.all (txnOk roster) = true
      · simp only [h2, if_true]
        congr 1
        funext x y
        simp [sumD, add_assoc]
      · simp only [if_neg h2]
    · rw [if_neg h]
      rw [Bool.not_eq_true] at h
      simp only [h, Bool.false_and]
      simp

theorem buildMatrix_eq (roster : List String) (es : List Txn) :
    buildMatrix roster es =
      if es.all (txnOk roster) then .ok (sumD roster es) else .error () := by
  unfold buildMatrix
  rw [forEachTxn_eq]
  by_cases h : es.all (txnOk roster) = true
  · rw [if_pos h, if_pos h]
    congr 1
    funext x y
    simp [zeroMat]
  · rw [if_neg h, if_neg h]

/-! ## Lemmas about the netting pair enumeration -/

theorem mem_of_mem_pairsAfter :
    ∀ {l : List String} {a b : String}, (a, b) ∈ pairsAfter l → a ∈ l ∧ b ∈ l := by
  intro l
  induction l with
  | nil => intro a b h; simp [pairsAfter] at h
  | cons p rest ih =>
    intro a b h
    rcases List.mem_append.mp h with h | h
    · rcases List.mem_map.mp h with ⟨q, hq, hpq⟩
      cases hpq
      exact ⟨List.mem_cons_self .., List.mem_cons_of_mem _ hq⟩
    · rcases ih h with ⟨ha, hb⟩
      exact ⟨List.mem_cons_of_mem _ ha, List.mem_cons_of_mem _ hb⟩

theorem pairsAfter_get_mem :
    ∀ (l : List String) (i j : ℕ) (hij : i < j) (hj : j < l.length),
    (l.get ⟨i, lt_trans hij hj⟩, l.get ⟨j, hj⟩) ∈ pairsAfter l
  | [], i, j, hij, hj => by simp at hj
  | p :: rest, 0, j + 1, hij, hj => by
    apply List.mem_append_left
    apply List.mem_map.mpr
    refine ⟨rest.get ⟨j, by simpa using hj⟩, List.get_mem .., rfl⟩
  | p :: rest, i + 1, j + 1, hij, hj => by
    apply List.mem_append_right
    exact pairsAfter_get_mem rest i j (Nat.lt_of_succ_lt_succ hij) (by simpa using hj)

theorem not_pairsAfter_both :
    ∀ {l : List String}, l.Nodup → ∀ {a b : String},
    (a, b) ∈ pairsAfter l → (b, a) ∈ pairsAfter l → False := by
  intro l
  induction l with
  | nil => intro _ a b h; simp [pairsAfter] at h
  | cons p rest ih =>
    intro hnd a b hab hba
    rw [List.nodup_cons] at hnd
    rcases List.mem_append.mp hab with h1 | h1 <;>
      rcases List.mem_append.mp hba with h2 | h2
    · rcases List.mem_map.mp h1 with ⟨q1, hq1, he1⟩
      rcases List.mem_map.mp h2 with ⟨q2, hq2, he2⟩
      cases he1; cases he2
      exact hnd.1 hq2
    · rcases List.mem_map.mp h1 with ⟨q1, hq1, he1⟩
      cases he1
      exact hnd.1 (mem_of_mem_pairsAfter h2).2
    · rcases List.mem_map.mp h2 with ⟨q2, hq2, he2⟩
      cases he2
      exact hnd.1 (mem_of_mem_pairsAfter h1).2
    · exact ih hnd.2 h1 h2

theorem pairsAfter_nodup : ∀ {l : List String}, l.Nodup → (pairsAfter l).Nodup := by
  intro l
  induction l with
  | nil => intro _; simp [pairsAfter]
  | cons p rest ih =>
    intro hnd
    rw [List.nodup_cons] at hnd
    show (List.map _ rest ++ pairsAfter rest).Nodup
    rw [List.nodup_append]
    refine ⟨hnd.2.map (fun x y h => ?_), ih hnd.2, ?_⟩
    · cases h; rfl
    · intro x hx hx2
      rcases List.mem_map.mp hx with ⟨q, hq, he⟩
      cases he
      exact hnd.1 (mem_of_mem_pairsAfter hx2).1

/-! ## Lemmas about the netting step -/

theorem settleEps_pos : 0 < settleEps := by norm_num [settleEps]

theorem netPair_eq_some {m : Mat} {pq : String × String} {d : Debt} :
    netPair m pq = some d ↔
      (settleEps < m pq.1 pq.2 - m pq.2 pq.1 ∧
        d = ⟨pq.1, pq.2, m pq.1 pq.2 - m pq.2 pq.1⟩) ∨
      (m pq.1 pq.2 - m pq.2 pq.1 < -settleEps ∧
        d = ⟨pq.2, pq.1, -(m pq.1 pq.2 - m pq.2 pq.1)⟩) := by
  simp only [netPair, gt_iff_lt]
  split
  · rename_i h
    constructor
    · intro hs
      exact Or.inl ⟨h, (Option.some_injective _ hs).symm⟩
    · rintro (⟨-, rfl⟩ | ⟨h2, rfl⟩)
      · rfl
      · exfalso; have := settleEps_pos; linarith
  · split
    · rename_i h h2
      constructor
      · intro hs
        exact Or.inr ⟨h2, (Option.some_injective _ hs).symm⟩
      · rintro (⟨h3, rfl⟩ | ⟨-, rfl⟩)
        · exact absurd h3 h
        · rfl
    · rename_i h h2
      constructor
      · intro hs; exact absurd hs (by simp)
      · rintro (⟨h3, rfl⟩ | ⟨h3, rfl⟩)
        · exact absurd h3 h
        · exact absurd h3 h2

theorem netPair_diag {m : Mat} {pq : String × String} (h : pq.1 = pq.2) :
    netPair m pq = none := by
  have h0 := settleEps_pos
  simp only [netPair, h, sub_self, gt_iff_lt]
  rw [if_neg (by linarith), if_neg (by linarith)]

theorem mem_netDebts {names : List String} {m : Mat} {d : Debt} :
    d ∈ netDebts names m ↔
      ∃ pq ∈ pairsAfter names, netPair m pq = some d := by
  unfold netDebts
  rw [List.mem_filterMap]

/-- Matrices that agree on all ordered pairs of distinct roster names
produce the same netted debt list (the diagonal is netted away and
non-roster cells are never read). -/
theorem netDebts_congr {names : List String} {m m' : Mat}
    (h : ∀ x ∈ names, ∀ y ∈ names, x ≠ y → m x y = m' x y) :
    netDebts names m = netDebts names m' := by
  unfold netDebts
  apply List.filterMap_congr
  intro pq hpq
  obtain ⟨h1, h2⟩ := mem_of_mem_pairsAfter hpq
  by_cases hd : pq.1 = pq.2
  · rw [netPair_diag hd, netPair_diag hd]
  · unfold netPair
    rw [h pq.1 h1 pq.2 h2 hd, h pq.2 h2 pq.1 h1 (Ne.symm hd)]

/-- `List.Nodup.filterMap` with the injectivity hypothesis restricted to
members of the list. -/
theorem nodup_filterMap_on {α β : Type} {f : α → Option β} :
    ∀ {l : List α}, l.Nodup →
    (∀ a ∈ l, ∀ a' ∈ l, ∀ b, b ∈ f a → b ∈ f a' → a = a') →
    (l.filterMap f).Nodup := by
  intro l
  induction l with
  | nil => intro _ _; simp
  | cons a l ih =>
    intro hnd hinj
    rw [List.nodup_cons] at hnd
    rw [List.filterMap_cons]
    cases hfa : f a with
    | none =>
      exact ih hnd.2 (fun x hx x' hx' b hb hb' =>
        hinj x (List.mem_cons_of_mem _ hx) x' (List.mem_cons_of_mem _ hx') b hb hb')
    | some b =>
      rw [List.nodup_cons]
      constructor
      · intro hb
        rcases List.mem_filterMap.mp hb with ⟨a', ha', hfa'⟩
        have : a = a' := hinj a (List.mem_cons_self ..) a' (List.mem_cons_of_mem _ ha') b
          (by simp [hfa]) hfa'
        exact hnd.1 (this ▸ ha')
      · exact ih hnd.2 (fun x hx x' hx' b hb hb' =>
          hinj x (List.mem_cons_of_mem _ hx) x' (List.mem_cons_of_mem _ hx') b hb hb')

/-- Structure of a successful engine run: either the roster is too small,
or the debts are the netted built matrix. -/
theorem calculateBalances_ok {es : List Txn} {ps : List Participant} {debts : List Debt}
    (hd : calculateBalances es ps = .ok debts) :
    (ps.length < 2 ∧ debts = []) ∨
      ∃ m, buildMatrix (rosterNames ps) es = .ok m ∧
        debts = netDebts (rosterNames ps) m := by
  unfold calculateBalances at hd
  split at hd
  · exact Or.inl ⟨by assumption, (Except.ok.injEq .. ▸ hd).symm⟩
  · rename_i hlen
    rcases hb : buildMatrix (rosterNames ps) es with u | m
    · rw [hb] at hd; exact absurd hd (by simp)
    · rw [hb] at hd
      refine Or.inr ⟨m, rfl, ?_⟩
      exact (Except.ok.injEq .. ▸ hd).symm

/-- Any emitted debt witnesses a gap above the threshold from its debtor
to its creditor, and has positive amount. -/
theorem netDebts_mem_gap {names : List String} {m : Mat} {d : Debt}
    (hd : d ∈ netDebts names m) :
    settleEps < m d.from_ d.to_ - m d.to_ d.from_ ∧ 0 < d.amount := by
  have h0 := settleEps_pos
  rcases mem_netDebts.mp hd with ⟨⟨p, q⟩, hpq, hemit⟩
  rcases netPair_eq_some.mp hemit with ⟨h1, rfl⟩ | ⟨h1, rfl⟩
  · exact ⟨h1, by simpa using by linarith⟩
  · refine ⟨by simpa using by linarith, by simpa using by linarith⟩

/-- The unordered pair of names on an emitted debt is the unordered pair
of the roster pair that produced it. -/
theorem netPair_sym2 {m : Mat} {pq : String × String} {d : Debt}
    (h : netPair m pq = some d) :
    Sym2.mk (d.from_, d.to_) = Sym2.mk pq := by
  obtain ⟨p, q⟩ := pq
  rcases netPair_eq_some.mp h with ⟨-, rfl⟩ | ⟨-, rfl⟩
  · rfl
  · exact Sym2.eq_swap

/-! ## Concrete data used by the witnesses -/

def alice : Participant := ⟨"1", "Alice"⟩
def bob : Participant := ⟨"2", "Bob"⟩
def carol : Participant := ⟨"3", "Carol"⟩

/-- The spec's scenario expense: `{amount:90, paidBy:"Alice",
splitMethod:"evenly", splitBetween:["Alice","Bob","Carol"]}`. -/
def exEven90 : Txn :=
  { amount := some 90, paidBy := some "Alice", splitMethod := "evenly",
    splitBetween := some ["Alice", "Bob", "Carol"] }

def debtsEven90 : List Debt := [⟨"Bob", "Alice", 30⟩, ⟨"Carol", "Alice", 30⟩]

/-! ## Claims -/

/-- C1. For every participant roster and transaction list, a successful
run of the balance engine emits only strictly positive debts, never both
`A→B` and `B→A`, and (for rosters with distinct names, as the data model
guarantees) at most one debt per unordered pair of participants: the
unordered name pairs on the emitted debts are pairwise distinct. -/
theorem claim_C1 (es : List Txn) (ps : List Participant) (debts : List Debt)
    (hd : calculateBalances es ps = .ok debts) :
    (∀ d ∈ debts, 0 < d.amount) ∧
    (∀ a b x y, (⟨a, b, x⟩ : Debt) ∈ debts → (⟨b, a, y⟩ : Debt) ∈ debts → False) ∧
    ((rosterNames ps).Nodup →
      (debts.map (fun d => Sym2.mk (d.from_, d.to_))).Nodup) := by
  rcases calculateBalances_ok hd with ⟨-, rfl⟩ | ⟨m, -, rfl⟩
  · exact ⟨by simp, fun a b x y h => by simp at h, by simp⟩
  · refine ⟨fun d hmem => (netDebts_mem_gap hmem).2, ?_, ?_⟩
    · intro a b x y hab hba
      have h1 := (netDebts_mem_gap hab).1
      have h2 := (netDebts_mem_gap hba).1
      simp only at h1 h2
      have h0 := settleEps_pos
      linarith
    · intro hnd
      unfold netDebts
      rw [List.map_filterMap]
      apply nodup_filterMap_on (pairsAfter_nodup hnd)
      rintro ⟨p, q⟩ hpq ⟨p', q'⟩ hpq' s hs hs'
      rw [Option.mem_def, Option.map_eq_some'] at hs hs'
      rcases hs with ⟨d, hd1, hd2⟩
      rcases hs' with ⟨d', hd1', hd2'⟩
      have he : Sym2.mk (p, q) = Sym2.mk (p', q') := by
        rw [← netPair_sym2 hd1, ← netPair_sym2 hd1', hd2, hd2']
      rcases Sym2.eq_iff.mp he with ⟨rfl, rfl⟩ | ⟨rfl, rfl⟩
      · rfl
      · exact absurd hpq (fun hc => not_pairsAfter_both hnd hpq' hc)

theorem claim_C1_witness :
    calculateBalances [exEven90] [alice, bob, carol] = .ok debtsEven90 ∧
    ((∀ d ∈ debtsEven90, 0 < d.amount) ∧
     (∀ a b x y, (⟨a, b, x⟩ : Debt) ∈ debtsEven90 →
        (⟨b, a, y⟩ : Debt) ∈ debtsEven90 → False) ∧
     ((rosterNames [alice, bob, carol]).Nodup →
       (debtsEven90.map (fun d => Sym2.mk (d.from_, d.to_))).Nodup)) := by
  have h : calculateBalances [exEven90] [alice, bob, carol] = .ok debtsEven90 := by
    simp [calculateBalances, buildMatrix, forEachTxn, applyTxn, truthyAmount, truthyStr,
          computeShares, objSet, applyShares, mupdAdd, netDebts, netPair, pairsAfter,
          rosterNames, settleEps, zeroMat, exEven90, alice, bob, carol, debtsEven90,
          List.filterMap_cons]
    norm_num
  exact ⟨h, claim_C1 _ _ _ h⟩

/-- C2. For each unordered roster pair `p1` before `p2` (indices `i < j`,
distinct names) with `net = ledger[p1][p2] - ledger[p2][p1]`: a net above
`0.01` emits `Debt{p1→p2, net}`, a net below `-0.01` emits
`Debt{p2→p1, -net}`, and a net within `±0.01` emits no debt between the
two. -/
theorem claim_C2 (ps : List Participant) (es : List Txn) (m : Mat) (debts : List Debt)
    (i j : ℕ) (hij : i < j) (hj : j < (rosterNames ps).length)
    (hnd : (rosterNames ps).Nodup)
    (hm : buildMatrix (rosterNames ps) es = .ok m)
    (hd : calculateBalances es ps = .ok debts) :
    let p1 := (rosterNames ps).get ⟨i, lt_trans hij hj⟩
    let p2 := (rosterNames ps).get ⟨j, hj⟩
    let net := m p1 p2 - m p2 p1
    (settleEps < net → (⟨p1, p2, net⟩ : Debt) ∈ debts) ∧
    (net < -settleEps → (⟨p2, p1, -net⟩ : Debt) ∈ debts) ∧
    (-settleEps ≤ net → net ≤ settleEps →
      ∀ d ∈ debts, ¬((d.from_ = p1 ∧ d.to_ = p2) ∨ (d.from_ = p2 ∧ d.to_ = p1))) := by
  intro p1 p2 net
  have hlen : ¬ ps.length < 2 := by
    have hj' : j < ps.length := by simpa [rosterNames] using hj
    omega
  rcases calculateBalances_ok hd with ⟨hl, -⟩ | ⟨m', hm', rfl⟩
  · exact absurd hl hlen
  · have hmm : m' = m := Except.ok.inj (hm'.symm.trans hm)
    subst hmm
    have hpair : (p1, p2) ∈ pairsAfter (rosterNames ps) :=
      pairsAfter_get_mem (rosterNames ps) i j hij hj
    refine ⟨?_, ?_, ?_⟩
    · intro hgt
      exact mem_netDebts.mpr ⟨(p1, p2), hpair, netPair_eq_some.mpr (Or.inl ⟨hgt, rfl⟩)⟩
    · intro hlt
      exact mem_netDebts.mpr ⟨(p1, p2), hpair, netPair_eq_some.mpr (Or.inr ⟨hlt, rfl⟩)⟩
    · intro hge hle d hdm hnames
      rcases mem_netDebts.mp hdm with ⟨⟨u, v⟩, huv, hemit⟩
      rcases netPair_eq_some.mp hemit with ⟨h1, rfl⟩ | ⟨h1, rfl⟩ <;>
        rcases hnames with ⟨hf, ht⟩ | ⟨hf, ht⟩ <;> simp only at hf ht <;> subst hf <;> subst ht
      · exact absurd h1 (by simp only [net] at hle; linarith)
      · exact not_pairsAfter_both hnd hpair huv
      · exact not_pairsAfter_both hnd hpair huv
      · exact absurd h1 (by simp only [net] at hge; linarith)

theorem claim_C2_witness :
    (0 : ℕ) < 1 ∧ 1 < (rosterNames [alice, bob]).length ∧
    (rosterNames [alice, bob]).Nodup ∧
    buildMatrix (rosterNames [alice, bob]) [] = .ok zeroMat ∧
    calculateBalances [] [alice, bob] = .ok [] ∧
    (-settleEps ≤ zeroMat "Alice" "Bob" - zeroMat "Bob" "Alice" →
      zeroMat "Alice" "Bob" - zeroMat "Bob" "Alice" ≤ settleEps →
      ∀ d ∈ ([] : List Debt),
        ¬((d.from_ = "Alice" ∧ d.to_ = "Bob") ∨ (d.from_ = "Bob" ∧ d.to_ = "Alice"))) := by
  have hm : buildMatrix (rosterNames [alice, bob]) [] = .ok zeroMat := rfl
  have hd : calculateBalances [] [alice, bob] = .ok [] := by
    simp [calculateBalances, buildMatrix, forEachTxn, applyTxn, netDebts, netPair,
          pairsAfter, rosterNames, settleEps, zeroMat, alice, bob, List.filterMap_cons]
    norm_num
  have h := claim_C2 [alice, bob] [] zeroMat [] 0 1 (by norm_num)
    (by simp [rosterNames, alice, bob]) (by simp [rosterNames, alice, bob]) hm hd
  exact ⟨by norm_num, by simp [rosterNames], by simp [rosterNames, alice, bob], hm, hd, h.2.2⟩

/-- The no-throw condition actually enforced by the code for one
transaction: a (truthy) payment needs a present `splitBetween` and a
roster payer; a (truthy) expense needs every allocated borrower other
than the payer to be a roster name. -/
def safeTxn (roster : List String) (e : Txn) : Prop :=
  match truthyAmount e.amount, truthyStr e.paidBy with
  | some a, some pb =>
    if e.isPayment then e.splitBetween ≠ none ∧ pb ∈ roster
    else ∀ p ∈ computeShares a e, p.1 ≠ pb → p.1 ∈ roster
  | _, _ => True

theorem applyShares_ok (roster : List String) (pb : String) :
    ∀ (sh : List (String × ℚ)) (m : Mat),
    (∀ p ∈ sh, p.1 ≠ pb → p.1 ∈ roster) →
    ∃ m', applyShares roster pb m sh = .ok m'
  | [], m, _ => ⟨m, rfl⟩
  | (b, s) :: rest, m, h => by
    simp only [applyShares]
    by_cases hb : b = pb
    · rw [if_pos hb]
      exact applyShares_ok roster pb rest m
        (fun p hp => h p (List.mem_cons_of_mem _ hp))
    · rw [if_neg hb, if_pos (h (b, s) (List.mem_cons_self ..) hb)]
      exact applyShares_ok roster pb rest (mupdAdd m b pb s)
        (fun p hp => h p (List.mem_cons_of_mem _ hp))

theorem applyTxn_ok_of_safe {roster : List String} {e : Txn}
    (hs : safeTxn roster e) (m : Mat) :
    ∃ m', applyTxn roster m e = .ok m' := by
  unfold safeTxn at hs
  unfold applyTxn
  revert hs
  rcases truthyAmount e.amount with _ | a <;> rcases truthyStr e.paidBy with _ | pb <;>
    intro hs
  · exact ⟨m, rfl⟩
  · exact ⟨m, rfl⟩
  · exact ⟨m, rfl⟩
  · cases hpay : e.isPayment
    · rw [hpay] at hs
      simp only [Bool.false_eq_true, if_false] at hs ⊢
      exact applyShares_ok roster pb (computeShares a e) m hs
    · rw [hpay] at hs
      simp only [if_true] at hs ⊢
      rcases hsb : e.splitBetween with _ | sb
      · rw [hsb] at hs
        exact absurd rfl hs.1
      · rw [hsb] at hs
        refine ⟨mupdAdd m pb (sb.headD "undefined") (-a), ?_⟩
        show (if pb ∈ roster then Except.ok (mupdAdd m pb (sb.headD "undefined") (-a))
              else Except.error ()) = _
        rw [if_pos hs.2]

theorem forEachTxn_ok_of_safe {roster : List String} :
    ∀ {es : List Txn}, (∀ e ∈ es, safeTxn roster e) →
    ∀ m, ∃ m', forEachTxn roster m es = .ok m' := by
  intro es
  induction es with
  | nil => exact fun _ m => ⟨m, rfl⟩
  | cons e es ih =>
    intro h m
    obtain ⟨m1, hm1⟩ := applyTxn_ok_of_safe (h e (List.mem_cons_self ..)) m
    obtain ⟨m', hm'⟩ := ih (fun x hx => h x (List.mem_cons_of_mem _ hx)) m1
    exact ⟨m', by simp only [forEachTxn, hm1, hm']⟩

/-- A transaction the spec declares harmless but on which the code throws
a `TypeError`: an expense split evenly between people who are not in the
participant roster (`debtsMatrix["Dave"]` is `undefined`). -/
def exOutsideRoster : Txn :=
  { amount := some 10, paidBy := some "Alice", splitMethod := "evenly",
    splitBetween := some ["Dave"] }

/-- C3 counterexample: the engine does not always return a result — an
expense whose share recipient is outside the roster makes
`calculateBalances` throw. -/
theorem claim_C3_counterexample :
    calculateBalances [exOutsideRoster] [alice, bob] = .error () := by
  simp [calculateBalances, buildMatrix, forEachTxn, applyTxn, truthyAmount, truthyStr,
        computeShares, objSet, applyShares, mupdAdd, rosterNames, zeroMat,
        exOutsideRoster, alice, bob]

/-- C3 (amended). The engine never throws — returns a (possibly empty)
result — provided every transaction with truthy `amount` and `paidBy`
satisfies the code's indexing conditions: a payment has a present
`splitBetween` (possibly empty) and a roster payer, and an expense's
allocated borrowers other than the payer are roster names. -/
theorem claim_C3 (es : List Txn) (ps : List Participant)
    (hsafe : ∀ e ∈ es, safeTxn (rosterNames ps) e) :
    ∃ debts, calculateBalances es ps = .ok debts := by
  unfold calculateBalances
  split
  · exact ⟨[], rfl⟩
  · obtain ⟨m', hm'⟩ := forEachTxn_ok_of_safe hsafe zeroMat
    unfold buildMatrix
    rw [hm']
    exact ⟨_, rfl⟩

/-- A payment with an empty (but present) `splitBetween`, which the code
tolerates: it writes through the literal key `"undefined"`. -/
def payEmptySb : Txn :=
  { amount := some 5, paidBy := some "Alice", isPayment := true,
    splitBetween := some [] }

theorem claim_C3_witness :
    (∀ e ∈ [payEmptySb], safeTxn (rosterNames [alice, bob]) e) ∧
    ∃ debts, calculateBalances [payEmptySb] [alice, bob] = .ok debts := by
  have hs : ∀ e ∈ [payEmptySb], safeTxn (rosterNames [alice, bob]) e := by
    intro e he
    simp only [List.mem_singleton] at he
    subst he
    simp [safeTxn, truthyAmount, truthyStr, payEmptySb, rosterNames, alice, bob]
  exact ⟨hs, claim_C3 [payEmptySb] [alice, bob] hs⟩

/-- Folding JS object assignments over entries with pairwise-distinct keys
(as JS object literals guarantee) just appends the transformed entries. -/
theorem foldl_objSet_nodup {f : String × ℚ → ℚ} :
    ∀ (it acc : List (String × ℚ)),
    (it.map Prod.fst).Nodup →
    (∀ k ∈ it.map Prod.fst, ¬ (acc.any (fun q => q.1 = k) = true)) →
    it.foldl (fun sh p => objSet sh p.1 (f p)) acc =
      acc ++ it.map (fun p => (p.1, f p))
  | [], acc, _, _ => by simp
  | p :: it, acc, hnd, hacc => by
    simp only [List.map_cons, List.nodup_cons] at hnd
    have hstep : objSet acc p.1 (f p) = acc ++ [(p.1, f p)] := by
      unfold objSet
      rw [if_neg (hacc p.1 (by simp))]
    simp only [List.foldl_cons, hstep]
    rw [foldl_objSet_nodup it (acc ++ [(p.1, f p)]) hnd.2 ?_]
    · simp
    · intro k hk hc
      rw [List.any_append] at hc
      rcases (Bool.or_eq_true ..).mp hc with hc | hc
      · exact hacc k (by simp [hk]) hc
      · simp only [List.any_cons, List.any_nil, Bool.or_false, decide_eq_true_eq] at hc
        subst hc
        exact hnd.1 hk

/-- The itemized Share Allocator on distinct-keyed entries: each person
gets their item cost plus a `baseTotal`-proportional cut of the extras. -/
theorem computeShares_item {a : ℚ} {e : Txn} {it : List (String × ℚ)}
    (hm : e.splitMethod = "item") (hit : e.itemized = some it)
    (hnd : (it.map Prod.fst).Nodup) :
    computeShares a e = it.map (fun p => (p.1,
      p.2 + (a - (it.map Prod.snd).sum) *
        (if (it.map Prod.snd).sum > 0 then p.2 / (it.map Prod.snd).sum else 0))) := by
  obtain ⟨am, pb, sm, sb, sv, ip, itz⟩ := e
  simp only at hm hit
  subst hm
  subst hit
  simp only [computeShares]
  rw [foldl_objSet_nodup it [] hnd (by simp)]
  simp

/-- The spec's itemized scenario: `amount:33, itemized:{Alice:10, Bob:20}`. -/
def exItem33 : Txn :=
  { amount := some 33, paidBy := some "Alice", splitMethod := "item",
    itemized := some [("Alice", 10), ("Bob", 20)] }

/-- C4. For an itemized expense with positive `baseTotal`, the allocated
shares `itemized[name] + extras * itemized[name]/baseTotal` sum exactly to
the expense amount; and on `amount:33, itemized:{Alice:10, Bob:20}` the
shares are Alice 11 and Bob 22. -/
theorem claim_C4 (e : Txn) (a : ℚ) (it : List (String × ℚ))
    (hm : e.splitMethod = "item") (hit : e.itemized = some it)
    (hnd : (it.map Prod.fst).Nodup)
    (hpos : 0 < (it.map Prod.snd).sum) :
    ((computeShares a e).map Prod.snd).sum = a ∧
    computeShares 33 exItem33 = [("Alice", 11), ("Bob", 22)] := by
  constructor
  · rw [computeShares_item hm hit hnd, List.map_map]
    set B := (it.map Prod.snd).sum with hB
    have hBne : B ≠ 0 := ne_of_gt hpos
    have hfun : (Prod.snd ∘ fun p : String × ℚ =>
        (p.1, p.2 + (a - B) * (if B > 0 then p.2 / B else 0)))
        = fun p : String × ℚ => p.2 * (1 + (a - B) / B) := by
      funext p
      simp only [Function.comp, if_pos hpos]
      field_simp
      ring
    rw [hfun, List.sum_map_mul_right, ← hB]
    field_simp
  · simp [computeShares, exItem33, objSet]
    norm_num

theorem claim_C4_witness :
    exItem33.splitMethod = "item" ∧
    exItem33.itemized = some [("Alice", (10 : ℚ)), ("Bob", 20)] ∧
    (([("Alice", (10 : ℚ)), ("Bob", 20)].map Prod.fst).Nodup) ∧
    (0 < ([("Alice", (10 : ℚ)), ("Bob", 20)].map Prod.snd).sum) ∧
    ((computeShares 33 exItem33).map Prod.snd).sum = 33 := by
  have h := claim_C4 exItem33 33 [("Alice", 10), ("Bob", 20)] rfl rfl (by simp) (by norm_num)
  exact ⟨rfl, rfl, by simp, by norm_num, h.1⟩

/-- The share-accumulation loop never writes into the payer's row: every
write targets `ledger[borrower][paidBy]` with `borrower ≠ paidBy`. -/
theorem applyShares_row (roster : List String) (pb : String) :
    ∀ (sh : List (String × ℚ)) (m m' : Mat),
    applyShares roster pb m sh = .ok m' → ∀ y, m' pb y = m pb y
  | [], m, m', h, y => by
    simp only [applyShares] at h
    exact (Except.ok.inj h) ▸ rfl
  | (b, s) :: rest, m, m', h, y => by
    simp only [applyShares] at h
    by_cases hb : b = pb
    · rw [if_pos hb] at h
      exact applyShares_row roster pb rest m m' h y
    · rw [if_neg hb] at h
      by_cases hr : b ∈ roster
      · rw [if_pos hr] at h
        have := applyShares_row roster pb rest (mupdAdd m b pb s) m' h y
        rw [this]
        simp only [mupdAdd]
        rw [if_neg (fun hc => hb (hc.1.symm))]
      · rw [if_neg hr] at h
        exact absurd h (by simp)

/-- C5. An expense never adds a share to the ledger for a borrower equal
to its payer: the payer's whole ledger row is untouched by the expense.
Consequently the spec's scenario — Alice pays 90 split evenly among
Alice, Bob and Carol — nets to exactly Bob→Alice 30 and Carol→Alice 30. -/
theorem claim_C5 (roster : List String) (m m' : Mat) (e : Txn)
    (hexp : e.isPayment = false)
    (hok : applyTxn roster m e = .ok m') :
    (∀ pb, truthyStr e.paidBy = some pb → ∀ y, m' pb y = m pb y) ∧
    calculateBalances [exEven90] [alice, bob, carol] = .ok debtsEven90 := by
  constructor
  · intro pb hpb y
    unfold applyTxn at hok
    revert hok
    rcases truthyAmount e.amount with _ | a <;>
      rcases hts : truthyStr e.paidBy with _ | pb0 <;> intro hok
    · exact (Except.ok.inj hok) ▸ rfl
    · exact (Except.ok.inj hok) ▸ rfl
    · exact absurd (hts.symm.trans hpb) (by simp)
    · have hpb0 : pb0 = pb := Option.some.inj (hts.symm.trans hpb)
      subst hpb0
      rw [hexp] at hok
      simp only [Bool.false_eq_true, if_false] at hok
      exact applyShares_row roster pb0 (computeShares a e) m m' hok y
  · simp [calculateBalances, buildMatrix, forEachTxn, applyTxn, truthyAmount, truthyStr,
          computeShares, objSet, applyShares, mupdAdd, netDebts, netPair, pairsAfter,
          rosterNames, settleEps, zeroMat, exEven90, alice, bob, carol, debtsEven90,
          List.filterMap_cons]
    norm_num

/-- An exact-amount expense used to exercise the self-share exclusion
without rational division. -/
def exAmount7 : Txn :=
  { amount := some 7, paidBy := some "Alice", splitMethod := "amount",
    splitValues := some [("Bob", 7)] }

theorem claim_C5_witness :
    exAmount7.isPayment = false ∧
    applyTxn (rosterNames [alice, bob, carol]) zeroMat exAmount7 =
      .ok (mupdAdd zeroMat "Bob" "Alice" 7) ∧
    ((∀ pb, truthyStr exAmount7.paidBy = some pb →
       ∀ y, mupdAdd zeroMat "Bob" "Alice" 7 pb y = zeroMat pb y) ∧
     calculateBalances [exEven90] [alice, bob, carol] = .ok debtsEven90) := by
  have hok : applyTxn (rosterNames [alice, bob, carol]) zeroMat exAmount7 =
      .ok (mupdAdd zeroMat "Bob" "Alice" 7) := by
    simp [applyTxn, truthyAmount, truthyStr, computeShares, objSet, applyShares,
          rosterNames, alice, bob, carol, exAmount7]
  exact ⟨rfl, hok, claim_C5 _ _ _ _ rfl hok⟩

/-- Folding constant-valued JS object assignments keeps every stored
value equal to that constant. -/
theorem foldl_objSet_const_val {v : ℚ} :
    ∀ (sb : List String) (acc : List (String × ℚ)),
    (∀ p ∈ acc, p.2 = v) →
    ∀ p ∈ sb.foldl (fun sh n => objSet sh n v) acc, p.2 = v
  | [], acc, hacc => hacc
  | hd :: sb, acc, hacc => by
    simp only [List.foldl_cons]
    refine foldl_objSet_const_val sb (objSet acc hd v) ?_
    intro p hp
    rcases objSet_mem p acc hd v hp with rfl | ⟨hmem, -⟩
    · rfl
    · exact hacc p hmem

/-- Every name inserted somewhere along the fold has an entry in the
final object. -/
theorem foldl_objSet_key_mem {v : ℚ} :
    ∀ (sb : List String) (acc : List (String × ℚ)) (n : String),
    (n ∈ sb ∨ ∃ x, (n, x) ∈ acc) →
    ∃ x, (n, x) ∈ sb.foldl (fun sh n => objSet sh n v) acc
  | [], acc, n, h => by
    rcases h with h | h
    · simp at h
    · exact h
  | hd :: sb, acc, n, h => by
    simp only [List.foldl_cons]
    rcases h with h | ⟨x, hx⟩
    · rcases List.mem_cons.mp h with rfl | h
      · exact foldl_objSet_key_mem sb _ n (Or.inr ⟨v, objSet_self_mem acc n v⟩)
      · exact foldl_objSet_key_mem sb _ n (Or.inl h)
    · exact foldl_objSet_key_mem sb _ n (Or.inr (objSet_key_stays n x acc hd v hx))

/-- Every entry of the folded object has its key among the inserted names
or the initial object's keys. -/
theorem foldl_objSet_key_sub {v : ℚ} :
    ∀ (sb : List String) (acc : List (String × ℚ)),
    ∀ p ∈ sb.foldl (fun sh n => objSet sh n v) acc,
      p.1 ∈ sb ∨ ∃ x, (p.1, x) ∈ acc
  | [], acc, p, hp => Or.inr ⟨p.2, hp⟩
  | hd :: sb, acc, p, hp => by
    simp only [List.foldl_cons] at hp
    rcases foldl_objSet_key_sub sb (objSet acc hd v) p hp with h | ⟨x, hx⟩
    · exact Or.inl (List.mem_cons_of_mem _ h)
    · rcases objSet_mem (p.1, x) acc hd v hx with he | ⟨hmem, -⟩
      · exact Or.inl (by rw [Prod.mk.injEq] at he; rw [he.1]; exact List.mem_cons_self ..)
      · exact Or.inr ⟨x, hmem⟩

/-- An expense whose allocator yields no shares is a no-op on the ledger. -/
theorem applyTxn_expense_empty {e : Txn} (hexp : e.isPayment = false)
    (hsh : ∀ a, computeShares a e = []) (roster : List String) (m : Mat) :
    applyTxn roster m e = .ok m := by
  unfold applyTxn
  rcases truthyAmount e.amount with _ | a <;> rcases truthyStr e.paidBy with _ | pb
  · rfl
  · rfl
  · rfl
  · rw [hexp]
    simp only [Bool.false_eq_true, if_false, hsh a]
    rfl

/-- C6. An `evenly` expense assigns each name in `splitBetween` the share
`amount / count(splitBetween)` (and nothing else); an absent or empty
`splitBetween` produces no shares and leaves the ledger unchanged. -/
theorem claim_C6 (e : Txn) (a : ℚ) (sb : List String)
    (hm : e.splitMethod = "evenly") :
    (e.splitBetween = some sb →
      (∀ n ∈ sb, (n, a / sb.length) ∈ computeShares a e) ∧
      (∀ p ∈ computeShares a e, p.1 ∈ sb ∧ p.2 = a / sb.length)) ∧
    ((e.splitBetween = none ∨ e.splitBetween = some []) →
      computeShares a e = [] ∧
      (e.isPayment = false → ∀ roster m, applyTxn roster m e = .ok m)) := by
  obtain ⟨am, pb, sm, sb0, sv, ip, itz⟩ := e
  simp only at hm
  subst hm
  constructor
  · intro hsb
    simp only at hsb
    subst hsb
    simp only [computeShares]
    by_cases h0 : sb.length = 0
    · rw [if_pos h0]
      rw [List.length_eq_zero] at h0
      subst h0
      exact ⟨by simp, by simp⟩
    · rw [if_neg h0]
      constructor
      · intro n hn
        obtain ⟨x, hx⟩ := foldl_objSet_key_mem sb [] n (Or.inl hn)
        have hv := foldl_objSet_const_val sb [] (by simp) (n, x) hx
        simp only at hv
        subst hv
        exact hx
      · intro p hp
        have hv := foldl_objSet_const_val sb [] (by simp) p hp
        rcases foldl_objSet_key_sub sb [] p hp with hk | ⟨x, hx⟩
        · exact ⟨hk, hv⟩
        · simp at hx
  · intro hsb
    have hshares : ∀ a' : ℚ, computeShares a' ⟨am, pb, "evenly", sb0, sv, ip, itz⟩ = [] := by
      intro a'
      rcases hsb with hsb | hsb <;> simp only at hsb <;> subst hsb <;>
        simp [computeShares]
    refine ⟨hshares a, fun hip roster m => ?_⟩
    simp only at hip
    exact applyTxn_expense_empty hip hshares roster m

theorem claim_C6_witness :
    exEven90.splitMethod = "evenly" ∧
    exEven90.splitBetween = some ["Alice", "Bob", "Carol"] ∧
    (∀ n ∈ (["Alice", "Bob", "Carol"] : List String),
      (n, (90 : ℚ) / (["Alice", "Bob", "Carol"] : List String).length) ∈
        computeShares 90 exEven90) := by
  have h := claim_C6 exEven90 90 ["Alice", "Bob", "Carol"] rfl
  exact ⟨rfl, rfl, (h.1 rfl).1⟩

/-- Scenario expense: A pays 100, split evenly between A and B. -/
def exEven100 : Txn :=
  { amount := some 100, paidBy := some "Alice", splitMethod := "evenly",
    splitBetween := some ["Alice", "Bob"] }

/-- Scenario payment: B pays A 50. -/
def payBob50 : Txn :=
  { amount := some 50, paidBy := some "Bob", isPayment := true,
    splitBetween := some ["Alice"] }

/-- C7. A (truthy) payment with roster payer decrements exactly the
ledger cell `ledger[payer][recipient]` by its amount and changes nothing
else; consequently, in the scenario "A pays 100 split evenly between A
and B, then B pays A 50", the pair is fully settled and no debt is
emitted. -/
theorem claim_C7 (roster : List String) (m : Mat) (e : Txn) (a : ℚ)
    (pb r : String) (rest : List String)
    (hpay : e.isPayment = true)
    (ha : truthyAmount e.amount = some a)
    (hpb : truthyStr e.paidBy = some pb)
    (hsb : e.splitBetween = some (r :: rest))
    (hr : pb ∈ roster) :
    applyTxn roster m e = .ok (mupdAdd m pb r (-a)) ∧
    mupdAdd m pb r (-a) pb r = m pb r - a ∧
    (∀ x y, ¬(x = pb ∧ y = r) → mupdAdd m pb r (-a) x y = m x y) ∧
    calculateBalances [exEven100, payBob50] [alice, bob] = .ok [] := by
  refine ⟨?_, ?_, ?_, ?_⟩
  · unfold applyTxn
    rw [ha, hpb]
    show (if e.isPayment = true then _ else _) = _
    rw [if_pos hpay, hsb]
    show (if pb ∈ roster then _ else _) = _
    rw [if_pos hr]
    rfl
  · simp [mupdAdd]
    ring
  · intro x y hxy
    simp only [mupdAdd]
    rw [if_neg hxy]
  · simp [calculateBalances, buildMatrix, forEachTxn, applyTxn, truthyAmount, truthyStr,
          computeShares, objSet, applyShares, mupdAdd, netDebts, netPair, pairsAfter,
          rosterNames, settleEps, zeroMat, exEven100, payBob50, alice, bob,
          List.filterMap_cons]
    norm_num

theorem claim_C7_witness :
    payBob50.isPayment = true ∧
    truthyAmount payBob50.amount = some 50 ∧
    truthyStr payBob50.paidBy = some "Bob" ∧
    payBob50.splitBetween = some ["Alice"] ∧
    "Bob" ∈ rosterNames [alice, bob] ∧
    applyTxn (rosterNames [alice, bob]) zeroMat payBob50 =
      .ok (mupdAdd zeroMat "Bob" "Alice" (-50)) ∧
    calculateBalances [exEven100, payBob50] [alice, bob] = .ok [] := by
  have ha : truthyAmount payBob50.amount = some 50 := by
    simp [truthyAmount, payBob50]
  have hpb : truthyStr payBob50.paidBy = some "Bob" := by
    simp [truthyStr, payBob50]
  have hr : "Bob" ∈ rosterNames [alice, bob] := by
    simp [rosterNames, alice, bob]
  have h := claim_C7 (rosterNames [alice, bob]) zeroMat payBob50 50 "Bob" "Alice" []
    rfl ha hpb rfl hr
  exact ⟨rfl, ha, hpb, rfl, hr, h.1, h.2.2.2⟩

/-- C8. The engine is deterministic (same inputs, same output) and
order-independent over the transaction list: permuting the transactions
leaves the computed result unchanged. -/
theorem claim_C8 (es1 es2 : List Txn) (ps : List Participant)
    (hperm : es1.Perm es2) :
    calculateBalances es1 ps = calculateBalances es1 ps ∧
    calculateBalances es1 ps = calculateBalances es2 ps := by
  refine ⟨rfl, ?_⟩
  have hb : buildMatrix (rosterNames ps) es1 = buildMatrix (rosterNames ps) es2 := by
    rw [buildMatrix_eq, buildMatrix_eq]
    have hall : es1.all (txnOk (rosterNames ps)) = es2.all (txnOk (rosterNames ps)) := by
      rw [Bool.eq_iff_iff, List.all_eq_true, List.all_eq_true]
      exact ⟨fun h x hx => h x (hperm.mem_iff.mpr hx),
             fun h x hx => h x (hperm.mem_iff.mp hx)⟩
    have hsum : sumD (rosterNames ps) es1 = sumD (rosterNames ps) es2 := by
      funext x y
      exact (hperm.map (fun e => dTxn (rosterNames ps) e x y)).sum_eq
    rw [hall, hsum]
  unfold calculateBalances
  by_cases hlen : ps.length < 2
  · rw [if_pos hlen, if_pos hlen]
  · rw [if_neg hlen, if_neg hlen, hb]

theorem claim_C8_witness :
    ([exEven100, payBob50] : List Txn).Perm [payBob50, exEven100] ∧
    calculateBalances [exEven100, payBob50] [alice, bob] =
      calculateBalances [payBob50, exEven100] [alice, bob] := by
  have hp : ([exEven100, payBob50] : List Txn).Perm [payBob50, exEven100] :=
    List.Perm.swap payBob50 exEven100 []
  exact ⟨hp, (claim_C8 [exEven100, payBob50] [payBob50, exEven100] [alice, bob] hp).2⟩

/-- A transaction failing the `!amount || !paidBy` guard is a ledger
no-op. -/
theorem applyTxn_skip {e : Txn}
    (h : truthyAmount e.amount = none ∨ truthyStr e.paidBy = none)
    (roster : List String) (m : Mat) : applyTxn roster m e = .ok m := by
  unfold applyTxn
  rcases h with h | h
  · rw [h]
  · rw [h]
    rcases truthyAmount e.amount with _ | a <;> rfl

/-- Removing a no-op transaction from anywhere in the list leaves the
`forEach` fold unchanged. -/
theorem forEachTxn_skip_middle (roster : List String) {e : Txn}
    (hskip : ∀ m, applyTxn roster m e = .ok m) :
    ∀ (pre post : List Txn) (m : Mat),
    forEachTxn roster m (pre ++ e :: post) = forEachTxn roster m (pre ++ post) := by
  intro pre
  induction pre with
  | nil =>
    intro post m
    simp only [List.nil_append, forEachTxn, hskip m]
  | cons x pre ih =>
    intro post m
    simp only [List.cons_append, forEachTxn]
    rcases applyTxn roster m x with u | m'
    · rfl
    · exact ih post m'

/-- C9. A transaction with missing or zero `amount`, or missing `paidBy`,
is skipped entirely: it leaves the ledger unchanged and the engine output
equals the output on the list without it. -/
theorem claim_C9 (e : Txn)
    (hskip : e.amount = none ∨ e.amount = some 0 ∨ e.paidBy = none) :
    (∀ roster m, applyTxn roster m e = .ok m) ∧
    ∀ pre post ps, calculateBalances (pre ++ e :: post) ps =
      calculateBalances (pre ++ post) ps := by
  have h1 : ∀ roster m, applyTxn roster m e = .ok m := by
    refine fun roster m => applyTxn_skip ?_ roster m
    rcases hskip with h | h | h
    · exact Or.inl (by rw [h]; rfl)
    · exact Or.inl (by rw [h]; simp [truthyAmount])
    · exact Or.inr (by rw [h]; rfl)
  refine ⟨h1, fun pre post ps => ?_⟩
  unfold calculateBalances
  by_cases hlen : ps.length < 2
  · rw [if_pos hlen, if_pos hlen]
  · rw [if_neg hlen, if_neg hlen]
    unfold buildMatrix
    rw [forEachTxn_skip_middle (rosterNames ps) (h1 (rosterNames ps)) pre post zeroMat]

/-- A fully empty transaction record (missing amount and payer). -/
def emptyTxn : Txn := {}

theorem claim_C9_witness :
    emptyTxn.amount = none ∧
    applyTxn (rosterNames [alice, bob]) zeroMat emptyTxn = .ok zeroMat ∧
    calculateBalances [emptyTxn] [alice, bob] = calculateBalances [] [alice, bob] := by
  have h := claim_C9 emptyTxn (Or.inl rfl)
  exact ⟨rfl, h.1 _ _, h.2 [] [] [alice, bob]⟩

/-- A truthy payment with a present `splitBetween` and roster payer
performs exactly one compound assignment on the ledger. -/
theorem applyTxn_payment {roster : List String} {m : Mat} {e : Txn} {a : ℚ}
    {pb r : String} {rest : List String}
    (hpay : e.isPayment = true) (ha : truthyAmount e.amount = some a)
    (hpb : truthyStr e.paidBy = some pb) (hsb : e.splitBetween = some (r :: rest))
    (hrost : pb ∈ roster) :
    applyTxn roster m e = .ok (mupdAdd m pb r (-a)) := by
  unfold applyTxn
  rw [ha, hpb]
  show (if e.isPayment = true then _ else _) = _
  rw [if_pos hpay, hsb]
  show (if pb ∈ roster then _ else _) = _
  rw [if_pos hrost]
  rfl

/-- C10. A payment whose recipient is its own payer, or whose recipient
is not a roster name, only writes a ledger cell the netting loop never
reads: inserting it anywhere in the transaction list leaves the engine
output unchanged. -/
theorem claim_C10 (ps : List Participant) (e : Txn) (a : ℚ)
    (pb r : String) (rest : List String)
    (hpay : e.isPayment = true)
    (ha : truthyAmount e.amount = some a)
    (hpb : truthyStr e.paidBy = some pb)
    (hsb : e.splitBetween = some (r :: rest))
    (hroster : pb ∈ rosterNames ps)
    (hr : r = pb ∨ r ∉ rosterNames ps) :
    ∀ pre post, calculateBalances (pre ++ e :: post) ps =
      calculateBalances (pre ++ post) ps := by
  intro pre post
  have happ : ∀ m, applyTxn (rosterNames ps) m e = .ok (mupdAdd m pb r (-a)) :=
    fun m => applyTxn_payment hpay ha hpb hsb hroster
  have htok : txnOk (rosterNames ps) e = true := by
    unfold txnOk
    rw [happ zeroMat]
  have hdt : dTxn (rosterNames ps) e = mupdAdd zeroMat pb r (-a) := by
    unfold dTxn
    rw [happ zeroMat]
  unfold calculateBalances
  by_cases hlen : ps.length < 2
  · rw [if_pos hlen, if_pos hlen]
  · rw [if_neg hlen, if_neg hlen, buildMatrix_eq, buildMatrix_eq]
    have hall : (pre ++ e :: post).all (txnOk (rosterNames ps))
        = (pre ++ post).all (txnOk (rosterNames ps)) := by
      simp [List.all_append, List.all_cons, htok]
    rw [hall]
    by_cases hok : (pre ++ post).all (txnOk (rosterNames ps)) = true
    · rw [if_pos hok, if_pos hok]
      have hcong : netDebts (rosterNames ps) (sumD (rosterNames ps) (pre ++ e :: post))
          = netDebts (rosterNames ps) (sumD (rosterNames ps) (pre ++ post)) := by
        apply netDebts_congr
        intro x hx y hy hxy
        have hzero : dTxn (rosterNames ps) e x y = 0 := by
          rw [hdt]
          simp only [mupdAdd, zeroMat]
          have hcond : ¬(x = pb ∧ y = r) := by
            rintro ⟨rfl, rfl⟩
            rcases hr with hr | hr
            · exact hxy hr.symm
            · exact hr hy
          rw [if_neg hcond]
        simp only [sumD]
        rw [List.map_append, List.map_append, List.map_cons, List.sum_append,
          List.sum_append, List.sum_cons, hzero, zero_add]
      show Except.ok (netDebts (rosterNames ps) (sumD (rosterNames ps) (pre ++ e :: post)))
        = Except.ok (netDebts (rosterNames ps) (sumD (rosterNames ps) (pre ++ post)))
      rw [hcong]
    · rw [if_neg hok, if_neg hok]

/-- A self-payment: Alice pays Alice 5. -/
def selfPay5 : Txn :=
  { amount := some 5, paidBy := some "Alice", isPayment := true,
    splitBetween := some ["Alice"] }

theorem claim_C10_witness :
    selfPay5.isPayment = true ∧
    truthyAmount selfPay5.amount = some 5 ∧
    truthyStr selfPay5.paidBy = some "Alice" ∧
    selfPay5.splitBetween = some ["Alice"] ∧
    "Alice" ∈ rosterNames [alice, bob] ∧
    calculateBalances [exEven100, selfPay5] [alice, bob] =
      calculateBalances [exEven100] [alice, bob] := by
  have ha : truthyAmount selfPay5.amount = some 5 := by simp [truthyAmount, selfPay5]
  have hpb : truthyStr selfPay5.paidBy = some "Alice" := by simp [truthyStr, selfPay5]
  have hro : "Alice" ∈ rosterNames [alice, bob] := by simp [rosterNames, alice, bob]
  have h := claim_C10 [alice, bob] selfPay5 5 "Alice" "Alice" [] rfl ha hpb rfl hro
    (Or.inl rfl)
  exact ⟨rfl, ha, hpb, rfl, hro, h [exEven100] []⟩
